import Mathlib

/-!
Shallow embedding of the `hivemq-client-for-python` repository core:
the `OptimizedMessageHandler` ingestion pipeline (`src/main.py`), the
connection handler (`src/mqtt_client/connection_handler.py`), the MQTT
client wrapper (`src/mqtt_client/mqtt_client.py`) and the certificate
normalization in `HiveMQSSLContextFactory.__init__`
(`src/mqtt_client/ssl_context.py`).

Python machine state is made explicit: the handler object becomes a
`Handler` structure, the background worker's interleaving with the
network callback becomes an explicit event list (`Ev`), database and
transport calls become oracle parameters, and exceptions raised by
collaborators become `Except` values.
-/

namespace HiveMQ

/-! ## Ingestion queue and handler state (`OptimizedMessageHandler`, src/main.py)

`queue` models `self.message_queue` (front of the list = oldest element,
as in `queue.Queue`); `maxsize` is the `max_queue_size` constructor
argument; `processed` and `dropped` are `self.processed_count` and
`self.dropped_count`. -/

structure Handler (α : Type) where
  queue : List α
  maxsize : Nat
  processed : Nat
  dropped : Nat
  deriving Repr, DecidableEq

/-- Model of `queue.Queue.full()`: `0 < self.maxsize <= self._qsize()`. -/
def qfull (h : Handler α) : Bool :=
  0 < h.maxsize && h.maxsize ≤ h.queue.length

/-- Model of `OptimizedMessageHandler.handle_message` (src/main.py lines 38-49):
if the queue is not full, `put_nowait` appends the message; otherwise the
message is discarded and `dropped_count` is incremented.  The body never
blocks (`put_nowait`) and its `try/except` means it always returns
normally; in this pure model it is a total function. -/
def handle_message (h : Handler α) (m : α) : Handler α :=
  if !(qfull h) then
    { h with queue := h.queue ++ [m] }
  else
    { h with dropped := h.dropped + 1 }

/-! ## Store with retry (`OptimizedMessageHandler._store_message`)

The database client is abstracted as an oracle `Nat → Bool`: `oracle k`
tells whether the `k`-th call (0-based) of `db_client.create_message`
for this record returns normally (`true`) or raises (`false`). -/

structure StoreOutcome where
  /-- number of `create_message` calls made -/
  calls : Nat
  /-- true iff `_store_message` returned normally -/
  ok : Bool
  /-- true iff the final-attempt `logging.error` fired (and the
  exception was re-raised) -/
  errorLogged : Bool
  /-- number of `logging.warning` retry lines -/
  warnings : Nat
  deriving Repr, DecidableEq

/-- The `while retry_count < max_retries` loop of `_store_message`
(src/main.py lines 73-94), with `fuel = max_retries - retry_count`.
On success the function returns; on failure `retry_count` is
incremented, and if it reached `max_retries` the error is logged and the
exception re-raised (`ok := false`), else a warning is logged and the
loop retries. -/
def store_attempts (oracle : Nat → Bool) : Nat → Nat → StoreOutcome
  | 0, _ => ⟨0, false, false, 0⟩
  | fuel + 1, k =>
    if oracle k then ⟨1, true, false, 0⟩
    else if fuel = 0 then ⟨1, false, true, 0⟩
    else
      let r := store_attempts oracle fuel (k + 1)
      ⟨r.calls + 1, r.ok, r.errorLogged, r.warnings + 1⟩

/-- Model of `OptimizedMessageHandler._store_message` with `max_retries = 3`. -/
def store_message (oracle : Nat → Bool) : StoreOutcome :=
  store_attempts oracle 3 0

/-! ## The two-context system

Exactly two execution contexts touch the handler: the network callback
(calls `handle_message`) and the single storage worker
(`_process_messages`).  An interleaving is a list of events: `enq m` is
one network callback, `tick` is one iteration of the worker loop
(`self.message_queue.get(timeout=1.0)` which either raises `Empty` or
yields the oldest record). -/

inductive Ev (α : Type) where
  | enq (m : α)
  | tick
  deriving Repr, DecidableEq

/-- Whole-system state: the handler object plus instrumentation of the
database collaborator: `persisted` is the list of records successfully
inserted (in insertion order), `errors` counts loop-level
`logging.error` events of `_process_messages`, `insertCalls` counts
`create_message` invocations. -/
structure SysState (α : Type) where
  h : Handler α
  persisted : List α
  errors : Nat
  insertCalls : Nat
  deriving Repr, DecidableEq

/-- One event of the system.  `tick` is one iteration of the
`_process_messages` loop body (src/main.py lines 51-71): an empty queue
raises `Empty` and the loop continues; otherwise the oldest record is
dequeued and `_store_message` runs — on success `processed_count` is
incremented, on the re-raised store exception the loop's
`except Exception` logs an error and continues. -/
def sysStep (orc : α → Nat → Bool) (s : SysState α) : Ev α → SysState α
  | .enq m => { s with h := handle_message s.h m }
  | .tick =>
    match s.h.queue with
    | [] => s
    | m :: rest =>
      let r := store_message (orc m)
      if r.ok then
        { s with
          h := { s.h with queue := rest, processed := s.h.processed + 1 }
          persisted := s.persisted ++ [m]
          insertCalls := s.insertCalls + r.calls }
      else
        { s with
          h := { s.h with queue := rest }
          errors := s.errors + 1
          insertCalls := s.insertCalls + r.calls }

/-- Run a list of events. -/
def sysRun (orc : α → Nat → Bool) (s : SysState α) (evs : List (Ev α)) : SysState α :=
  evs.foldl (sysStep orc) s

/-- Initial state of `OptimizedMessageHandler.__init__` with
`max_queue_size = C`: empty queue, zero counters. -/
def sysInit (α : Type) (C : Nat) : SysState α :=
  ⟨⟨[], C, 0, 0⟩, [], 0, 0⟩

/-- The records enqueued by an event list, in order. -/
def enqOf : List (Ev α) → List α
  | [] => []
  | .enq m :: evs => m :: enqOf evs
  | .tick :: evs => enqOf evs

/-! ## Shutdown (`OptimizedMessageHandler.shutdown`, src/main.py 104-118)

After `running = False` and the worker join, the remaining queue is
drained on the calling thread: `while not empty: get_nowait();
_store_message(...)`, each iteration's exceptions caught and logged.
`drainList` returns, for a queue content, the list of records
successfully inserted (in order), the number of caught errors and the
number of `create_message` calls. -/
def drainList (orc : α → Nat → Bool) : List α → List α × Nat × Nat
  | [] => ([], 0, 0)
  | m :: rest =>
    let r := store_message (orc m)
    let (p, e, c) := drainList orc rest
    ((if r.ok then m :: p else p),
     e + (if r.ok then 0 else 1),
     c + r.calls)

/-- Model of `shutdown` applied to a system state (the drain phase; the stop flag
and thread join have no further effect on this state).  Note the drain
does not touch `processed_count`. -/
def shutdown_run (orc : α → Nat → Bool) (s : SysState α) : SysState α :=
  let (p, e, c) := drainList orc s.h.queue
  { h := { s.h with queue := [] }
    persisted := s.persisted ++ p
    errors := s.errors + e
    insertCalls := s.insertCalls + c }

/-! ## Connection handler (`DefaultConnectionHandler`,
src/mqtt_client/connection_handler.py)

`connected` and `subscribed_topics` are the two instance fields.  The
`client.subscribe(topic)` transport calls issued during resubscription
are returned as a list (the Python `set` iteration order is
unspecified; the model fixes the list order, which is irrelevant to
membership and counts). -/

structure ConnState where
  connected : Bool
  subscribed_topics : List String
  deriving Repr, DecidableEq

/-- Model of `DefaultConnectionHandler.on_connect` (lines 40-63): on reason code
0, set `connected`, then call `client.subscribe` once for each topic in
`subscribed_topics` (the set itself is not modified); on a non-zero
code, set `connected = False` and log. -/
def on_connect (st : ConnState) (rc : Nat) : ConnState × List String :=
  if rc = 0 then
    ({ connected := true, subscribed_topics := st.subscribed_topics },
     st.subscribed_topics)
  else
    ({ st with connected := false }, [])

/-- Model of `DefaultConnectionHandler.on_disconnect` (lines 65-69): always sets
`connected = False`; `subscribed_topics` is untouched. -/
def on_disconnect (st : ConnState) (_rc : Nat) : ConnState :=
  { st with connected := false }

/-- One disconnect/reconnect cycle: `on_disconnect(drc)` followed by
`on_connect(0)`; returns the new state and the transport subscribe
calls issued by the reconnect. -/
def reconnect_cycle (st : ConnState) (drc : Nat) : ConnState × List String :=
  on_connect (on_disconnect st drc) 0

/-- Runs `N` disconnect/reconnect cycles (one per disconnect reason code in
`drcs`); collects the subscribe-call list of every reconnect. -/
def run_cycles (st : ConnState) : List Nat → ConnState × List (List String)
  | [] => (st, [])
  | drc :: rest =>
    let (st1, calls) := reconnect_cycle st drc
    let (stf, more) := run_cycles st1 rest
    (stf, calls :: more)

/-! ## MQTT client wrapper facade (`MQTTClientWrapper`,
src/mqtt_client/mqtt_client.py)

Transport calls are oracles.  An `Except Nat τ` models a paho call that
either returns a value (`.ok`) or raises an exception (`.error e`, `e`
an opaque exception code). -/

/-- Result of one `publish` call: the returned boolean, the number of
`self.client.publish` invocations and the number of `self.connect()`
(reconnect) invocations. -/
structure PubRes where
  success : Bool
  publishCalls : Nat
  reconnectCalls : Nat
  deriving Repr, DecidableEq

/-- Model of `MQTTClientWrapper.publish` (lines 94-114).  `connected` is
`self.connection_handler.connected`; `reconnectOk` is the boolean
result of the single `self.connect()` call (made only when
disconnected); `pubOutcome` is the transport `publish` call outcome,
`.ok code` giving `result[0]`.  The whole body is inside
`try/except Exception`, so a raising transport yields `False`. -/
def publish (connected : Bool) (reconnectOk : Bool)
    (pubOutcome : Except Nat Nat) : PubRes :=
  if !connected && !reconnectOk then
    ⟨false, 0, 1⟩
  else
    let recCalls := if connected then 0 else 1
    match pubOutcome with
    | .ok code => ⟨code == 0, 1, recCalls⟩
    | .error _ => ⟨false, 1, recCalls⟩

/-- Result of one `subscribe` call: the returned boolean, the new
`subscribed_topics` and the number of `self.client.subscribe`
invocations. -/
structure SubRes where
  success : Bool
  topics : List String
  subscribeCalls : Nat
  deriving Repr, DecidableEq

/-- Python `set.add`: insert if absent (modelled on a duplicate-free
list). -/
def setAdd (l : List String) (t : String) : List String :=
  if t ∈ l then l else l ++ [t]

/-- Model of `MQTTClientWrapper.subscribe` (lines 116-130): one
`self.client.subscribe(topic, qos)` call; on ack code 0 the topic is
added to `connection_handler.subscribed_topics` and `True` returned;
on a non-zero code (or a raised exception, caught by the
`try/except`) `False` is returned and the set is untouched. -/
def subscribe (topics : List String) (topic : String)
    (ackOutcome : Except Nat Nat) : SubRes :=
  match ackOutcome with
  | .ok code =>
    if code = 0 then ⟨true, setAdd topics topic, 1⟩
    else ⟨false, topics, 1⟩
  | .error _ => ⟨false, topics, 1⟩

/-- Model of `MQTTClientWrapper.connect` (lines 67-86): `transportConnect` is the
outcome of `self.client.connect(...)`; `connectedAfterWait` is the value
of `connection_handler.connected` when the 10 s polling wait ends.  Any
exception is caught and `False` returned. -/
def connect_run (transportConnect : Except Nat Unit)
    (connectedAfterWait : Bool) : Bool :=
  match transportConnect with
  | .ok _ => connectedAfterWait
  | .error _ => false

/-- Model of `MQTTClientWrapper._on_message` (lines 45-55): building the
`Message` (`msg.payload.decode()` may raise) and calling
`handle_message` are wrapped in `try/except Exception`.  Returns the
new handler state and `true` iff the body completed without the except
branch. -/
def on_message_run (decodeRes : Except Nat α) (h : Handler α) :
    Handler α × Bool :=
  match decodeRes with
  | .ok m => (handle_message h m, true)
  | .error _ => (h, false)

/-! ## Certificate normalization (`HiveMQSSLContextFactory.__init__`,
src/mqtt_client/ssl_context.py lines 18-45)

Python strings are modelled as `List Char`. -/

/-- Python `str.strip()` whitespace test (ASCII whitespace:
space, `\t`, `\n`, `\r`, `\x0b`, `\x0c`). -/
def isPySpace (c : Char) : Bool :=
  c = ' ' || c = '\t' || c = '\n' || c = '\r' ||
  c = Char.ofNat 11 || c = Char.ofNat 12

/-- Python `str.strip()`: drop leading and trailing whitespace. -/
def pyStrip (l : List Char) : List Char :=
  ((l.dropWhile isPySpace).reverse.dropWhile isPySpace).reverse

/-- Tests whether `pat` is a leading segment of `l` (Python `str.startswith` /
the head test of the `in` operator). -/
def hasPre : List Char → List Char → Bool
  | [], _ => true
  | _ :: _, [] => false
  | p :: ps, c :: cs => p == c && hasPre ps cs

/-- Python substring test `pat in l`. -/
def containsSub (pat : List Char) : List Char → Bool
  | [] => hasPre pat []
  | c :: cs => hasPre pat (c :: cs) || containsSub pat cs

/-- Python `str.split('\n')`: split on every newline, keeping empty
pieces (never returns an empty list). -/
def splitNL : List Char → List (List Char)
  | [] => [[]]
  | c :: cs =>
    let r := splitNL cs
    if c = '\n' then [] :: r
    else
      match r with
      | [] => [[c]]
      | h :: t => (c :: h) :: t

/-- The `while line: formatted_lines.append(line[:64]); line = line[64:]`
loop: split a line into consecutive 64-character chunks. -/
def chunk64 (l : List Char) : List (List Char) :=
  if l.isEmpty then []
  else l.take 64 :: chunk64 (l.drop 64)
termination_by l.length
decreasing_by
  simp only [List.length_drop]
  cases l with
  | nil => simp [List.isEmpty] at *
  | cons a as => simp only [List.length_cons]; omega

def beginMark : List Char := "BEGIN CERTIFICATE".toList
def endMark : List Char := "END CERTIFICATE".toList
def dashes : List Char := "-----".toList
def beginLine : List Char := "-----BEGIN CERTIFICATE-----".toList
def endLine : List Char := "-----END CERTIFICATE-----".toList

/-- Per-line step of the formatting loop: a non-empty line not starting
with `-----` is re-wrapped into 64-character chunks; any other line is
kept as is. -/
def formatLine (l : List Char) : List (List Char) :=
  if !l.isEmpty && !hasPre dashes l then chunk64 l else [l]

/-- The line list of the normalized certificate: strip the input, add
the `BEGIN`/`END` delimiter lines when the corresponding marker text is
absent, split on newlines, strip each line and format it. -/
def normalizeLines (s : List Char) : List (List Char) :=
  let cert := pyStrip s
  let cert := if containsSub beginMark cert then cert
              else beginLine ++ '\n' :: cert
  let cert := if containsSub endMark cert then cert
              else cert ++ '\n' :: endLine
  (splitNL cert).flatMap (fun line => formatLine (pyStrip line))

/-- Value of `self.ca_cert`: the formatted lines joined with `'\n'.join(...)`. -/
def normalizeCert (s : List Char) : List Char :=
  List.intercalate ['\n'] (normalizeLines s)

/-! ## Helper lemmas -/

theorem setAdd_mem (l : List String) (t x : String) :
    x ∈ setAdd l t ↔ x ∈ l ∨ x = t := by
  unfold setAdd
  split
  · next h => constructor
              · exact fun hx => Or.inl hx
              · rintro (hx | rfl)
                · exact hx
                · exact h
  · simp

theorem setAdd_of_mem {l : List String} {t : String} (h : t ∈ l) :
    setAdd l t = l := by
  simp [setAdd, h]

theorem setAdd_nodup {l : List String} {t : String} (h : l.Nodup) :
    (setAdd l t).Nodup := by
  unfold setAdd
  split
  · exact h
  · next ht => simp [List.nodup_append, h, ht]

theorem run_cycles_spec (st : ConnState) (drcs : List Nat) :
    (run_cycles st drcs).1.subscribed_topics = st.subscribed_topics ∧
    (run_cycles st drcs).2 = drcs.map (fun _ => st.subscribed_topics) := by
  induction drcs generalizing st with
  | nil => simp [run_cycles]
  | cons drc rest ih =>
    have h1 : reconnect_cycle st drc =
        ({ connected := true, subscribed_topics := st.subscribed_topics },
         st.subscribed_topics) := by
      simp [reconnect_cycle, on_disconnect, on_connect]
    obtain ⟨ihl, ihr⟩ :=
      ih ⟨true, st.subscribed_topics⟩
    simp [run_cycles, h1, ihl, ihr]

theorem store_message_cases (oracle : Nat → Bool) :
    store_message oracle =
      if oracle 0 then ⟨1, true, false, 0⟩
      else if oracle 1 then ⟨2, true, false, 1⟩
      else if oracle 2 then ⟨3, true, false, 2⟩
      else ⟨3, false, true, 2⟩ := by
  cases h0 : oracle 0 <;> cases h1 : oracle 1 <;> cases h2 : oracle 2 <;>
    simp [store_message, store_attempts, h0, h1, h2]

theorem store_message_all_fail {oracle : Nat → Bool}
    (h : ∀ j, j < 3 → oracle j = false) :
    store_message oracle = ⟨3, false, true, 2⟩ := by
  rw [store_message_cases]
  simp [h 0 (by omega), h 1 (by omega), h 2 (by omega)]

theorem store_message_calls_le (oracle : Nat → Bool) :
    (store_message oracle).calls ≤ 3 := by
  rw [store_message_cases]
  cases h0 : oracle 0 <;> cases h1 : oracle 1 <;> cases h2 : oracle 2 <;>
    simp

theorem sysRun_cons (orc : α → Nat → Bool) (s : SysState α) (e : Ev α)
    (evs : List (Ev α)) :
    sysRun orc s (e :: evs) = sysRun orc (sysStep orc s e) evs := rfl

theorem sysStep_tick_fail {orc : α → Nat → Bool} {s : SysState α}
    {m : α} {rest : List α} (hq : s.h.queue = m :: rest)
    (hf : ∀ j, j < 3 → orc m j = false) :
    sysStep orc s .tick =
      { s with h := { s.h with queue := rest },
               errors := s.errors + 1,
               insertCalls := s.insertCalls + 3 } := by
  simp only [sysStep, hq, store_message_all_fail hf]
  simp

theorem sysStep_tick_ok {orc : α → Nat → Bool} {s : SysState α}
    {m : α} {rest : List α} (hq : s.h.queue = m :: rest)
    (hok : (store_message (orc m)).ok = true) :
    sysStep orc s .tick =
      { s with h := { s.h with queue := rest,
                               processed := s.h.processed + 1 },
               persisted := s.persisted ++ [m],
               insertCalls := s.insertCalls + (store_message (orc m)).calls } := by
  simp only [sysStep, hq, hok, if_pos]

theorem sysStep_maxsize (orc : α → Nat → Bool) (s : SysState α)
    (e : Ev α) : (sysStep orc s e).h.maxsize = s.h.maxsize := by
  cases e with
  | enq m =>
    simp only [sysStep, handle_message]
    split <;> rfl
  | tick =>
    simp only [sysStep]
    cases hq : s.h.queue with
    | nil => rfl
    | cons m rest => dsimp only; split <;> rfl

theorem sysStep_queue_le (orc : α → Nat → Bool) {s : SysState α}
    (e : Ev α) (hpos : 0 < s.h.maxsize)
    (hle : s.h.queue.length ≤ s.h.maxsize) :
    (sysStep orc s e).h.queue.length ≤ s.h.maxsize := by
  cases e with
  | enq m =>
    simp only [sysStep, handle_message]
    cases hql : qfull s.h with
    | false =>
      have hlt : s.h.queue.length < s.h.maxsize := by
        by_contra hge
        push_neg at hge
        simp [qfull, hpos, hge] at hql
      simp only [hql, Bool.not_false, if_true, List.length_append,
        List.length_cons, List.length_nil]
      omega
    | true =>
      simp only [hql, Bool.not_true, Bool.false_eq_true, if_false]
      exact hle
  | tick =>
    cases hq : s.h.queue with
    | nil => simp only [sysStep, hq, List.length_nil]; omega
    | cons m rest =>
      rw [hq] at hle
      simp only [List.length_cons] at hle
      simp only [sysStep, hq]
      split <;> simp only [List.length_cons] <;> omega

theorem sysRun_invariant (orc : α → Nat → Bool) (evs : List (Ev α))
    (s : SysState α) (hpos : 0 < s.h.maxsize)
    (hle : s.h.queue.length ≤ s.h.maxsize) :
    (sysRun orc s evs).h.maxsize = s.h.maxsize ∧
    (sysRun orc s evs).h.queue.length ≤ s.h.maxsize := by
  induction evs generalizing s with
  | nil => exact ⟨rfl, hle⟩
  | cons e evs ih =>
    rw [sysRun_cons]
    have hm := sysStep_maxsize orc s e
    have hq := sysStep_queue_le orc e hpos hle
    obtain ⟨a, b⟩ := ih (sysStep orc s e) (hm ▸ hpos) (hm ▸ hq)
    exact ⟨by rw [a, hm], by rw [hm] at b; exact b⟩

theorem hasPre_iff (pat l : List Char) :
    hasPre pat l = true ↔ ∃ v, pat ++ v = l := by
  induction pat generalizing l with
  | nil => simp [hasPre]
  | cons p ps ih =>
    cases l with
    | nil => simp [hasPre]
    | cons c cs =>
      simp only [hasPre, Bool.and_eq_true, beq_iff_eq, ih,
        List.cons_append, List.cons.injEq]
      constructor
      · rintro ⟨rfl, v, rfl⟩
        exact ⟨v, rfl, rfl⟩
      · rintro ⟨v, rfl, rfl⟩
        exact ⟨rfl, v, rfl⟩

theorem containsSub_iff (pat l : List Char) :
    containsSub pat l = true ↔ ∃ u v, u ++ pat ++ v = l := by
  induction l with
  | nil =>
    simp only [containsSub, hasPre_iff]
    constructor
    · rintro ⟨v, hv⟩
      exact ⟨[], v, hv⟩
    · rintro ⟨u, v, huv⟩
      rcases u with _ | ⟨c, u⟩
      · exact ⟨v, huv⟩
      · simp at huv
  | cons c cs ih =>
    simp only [containsSub, Bool.or_eq_true, hasPre_iff, ih]
    constructor
    · rintro (⟨v, hv⟩ | ⟨u, v, huv⟩)
      · exact ⟨[], v, hv⟩
      · exact ⟨c :: u, v, by simp [huv]⟩
    · rintro ⟨u, v, huv⟩
      rcases u with _ | ⟨d, u⟩
      · exact Or.inl ⟨v, huv⟩
      · simp only [List.cons_append, List.cons.injEq] at huv
        exact Or.inr ⟨u, v, huv.2⟩

theorem containsSub_of_context {pat m : List Char} (x y : List Char)
    (h : containsSub pat m = true) :
    containsSub pat (x ++ m ++ y) = true := by
  rw [containsSub_iff] at h ⊢
  obtain ⟨u, v, rfl⟩ := h
  exact ⟨x ++ u, v ++ y, by simp⟩

theorem pyStrip_context (s : List Char) :
    ∃ x y, x ++ pyStrip s ++ y = s := by
  refine ⟨s.takeWhile isPySpace,
    ((s.dropWhile isPySpace).reverse.takeWhile isPySpace).reverse, ?_⟩
  unfold pyStrip
  have h1 : (s.dropWhile isPySpace).reverse.takeWhile isPySpace ++
      (s.dropWhile isPySpace).reverse.dropWhile isPySpace
      = (s.dropWhile isPySpace).reverse :=
    List.takeWhile_append_dropWhile _ _
  have h2 : ((s.dropWhile isPySpace).reverse.dropWhile isPySpace).reverse ++
      ((s.dropWhile isPySpace).reverse.takeWhile isPySpace).reverse
      = s.dropWhile isPySpace := by
    rw [← List.reverse_append, h1, List.reverse_reverse]
  rw [List.append_assoc, h2, List.takeWhile_append_dropWhile _ _]

theorem hasPre_of_append_cons {pat a b : List Char}
    (hnl : '\n' ∉ pat) (h : hasPre pat (a ++ '\n' :: b) = true) :
    hasPre pat a = true := by
  induction pat generalizing a with
  | nil => rfl
  | cons p ps ih =>
    cases a with
    | nil =>
      simp only [List.nil_append, hasPre, Bool.and_eq_true,
        beq_iff_eq] at h
      exact absurd (h.1 ▸ List.mem_cons_self p ps) hnl
    | cons c a' =>
      simp only [List.cons_append, hasPre, Bool.and_eq_true] at h ⊢
      exact ⟨h.1, ih (fun hm => hnl (List.mem_cons_of_mem p hm)) h.2⟩

theorem hasPre_containsSub {pat l : List Char}
    (h : hasPre pat l = true) : containsSub pat l = true := by
  cases l with
  | nil => exact h
  | cons c cs => simp [containsSub, h]

theorem containsSub_append_cons {pat : List Char} (a b : List Char)
    (hnl : '\n' ∉ pat)
    (h : containsSub pat (a ++ '\n' :: b) = true) :
    containsSub pat a = true ∨ containsSub pat b = true := by
  induction a with
  | nil =>
    simp only [List.nil_append, containsSub, Bool.or_eq_true] at h
    rcases h with h | h
    · cases pat with
      | nil => exact Or.inl rfl
      | cons p ps =>
        simp only [hasPre, Bool.and_eq_true, beq_iff_eq] at h
        exact absurd (h.1 ▸ List.mem_cons_self p ps) hnl
    · exact Or.inr h
  | cons c a' ih =>
    simp only [List.cons_append, containsSub, Bool.or_eq_true] at h
    rcases h with h | h
    · have h' : hasPre pat ((c :: a') ++ '\n' :: b) = true := by
        rw [List.cons_append]
        exact h
      exact Or.inl (hasPre_containsSub (hasPre_of_append_cons hnl h'))
    · rcases ih h with h' | h'
      · exact Or.inl (by simp [containsSub, h'])
      · exact Or.inr h'

theorem splitNL_ne_nil (l : List Char) : splitNL l ≠ [] := by
  cases l with
  | nil => simp [splitNL]
  | cons c cs =>
    simp only [splitNL]
    split
    · simp
    · split <;> simp

theorem splitNL_append (a b : List Char) :
    splitNL (a ++ '\n' :: b) = splitNL a ++ splitNL b := by
  induction a with
  | nil => simp [splitNL]
  | cons c a' ih =>
    by_cases hc : c = '\n'
    · subst hc
      simp [splitNL, List.append_eq, ih]
    · obtain ⟨h, t, ht⟩ := List.exists_cons_of_ne_nil (splitNL_ne_nil a')
      simp [splitNL, List.append_eq, ih, ht, if_neg hc]

theorem splitNL_no_nl {l : List Char} (h : '\n' ∉ l) :
    splitNL l = [l] := by
  induction l with
  | nil => rfl
  | cons c cs ih =>
    have hc : ¬ c = '\n' := fun hc => h (hc ▸ List.mem_cons_self c cs)
    have hcs : '\n' ∉ cs := fun hm => h (List.mem_cons_of_mem c hm)
    simp only [splitNL, if_neg hc, ih hcs]

theorem chunk64_eq_nil_iff (l : List Char) : chunk64 l = [] ↔ l = [] := by
  rw [chunk64]
  split
  · next h => simp [List.isEmpty_iff.mp h]
  · next h =>
    have hne : l ≠ [] := by simpa [List.isEmpty_iff] using h
    simp [hne]

theorem chunk64_flatten (l : List Char) : (chunk64 l).flatten = l := by
  rw [chunk64]
  split
  · next h => simp [List.isEmpty_iff.mp h]
  · next h =>
    have hlt : (l.drop 64).length < l.length := by
      have hne : l ≠ [] := by simpa [List.isEmpty_iff] using h
      have := List.length_pos.mpr hne
      simp only [List.length_drop]
      omega
    rw [List.flatten_cons, chunk64_flatten (l.drop 64)]
    exact List.take_append_drop 64 l
termination_by l.length
decreasing_by exact hlt

theorem chunk64_mem_le (l : List Char) :
    ∀ c ∈ chunk64 l, c.length ≤ 64 := by
  intro c hc
  rw [chunk64] at hc
  split at hc
  · simp at hc
  · rename_i hne
    have hlt : (l.drop 64).length < l.length := by
      have h0 : l ≠ [] := by simpa [List.isEmpty_iff] using hne
      have := List.length_pos.mpr h0
      simp only [List.length_drop]
      omega
    rcases List.mem_cons.mp hc with rfl | hc'
    · simp only [List.length_take]
      omega
    · exact chunk64_mem_le (l.drop 64) c hc'
termination_by l.length
decreasing_by exact hlt

theorem chunk64_getD (l : List Char) (i : Nat)
    (h : i + 1 < (chunk64 l).length) :
    ((chunk64 l).getD i []).length = 64 := by
  rw [chunk64] at h ⊢
  split at h
  · simp at h
  · rename_i hne
    have hlt : (l.drop 64).length < l.length := by
      have h0 : l ≠ [] := by simpa [List.isEmpty_iff] using hne
      have := List.length_pos.mpr h0
      simp only [List.length_drop]
      omega
    rw [if_neg hne]
    cases i with
    | zero =>
      simp only [List.getD_cons_zero, List.length_take]
      simp only [List.length_cons] at h
      have h1 : chunk64 (l.drop 64) ≠ [] := by
        intro hnil
        rw [hnil] at h
        simp at h
      have h2 : l.drop 64 ≠ [] := fun hd =>
        h1 ((chunk64_eq_nil_iff _).mpr hd)
      have h3 : 0 < (l.drop 64).length := List.length_pos.mpr h2
      simp only [List.length_drop] at h3
      omega
    | succ j =>
      simp only [List.getD_cons_succ]
      simp only [List.length_cons] at h
      exact chunk64_getD (l.drop 64) j (by omega)
termination_by l.length
decreasing_by exact hlt

theorem normalizeLines_eq_of_absent (s : List Char)
    (hb : containsSub beginMark s = false)
    (he : containsSub endMark s = false) :
    normalizeLines s =
      [beginLine]
      ++ (splitNL (pyStrip s)).flatMap (fun line => formatLine (pyStrip line))
      ++ [endLine] := by
  obtain ⟨x, y, hxy⟩ := pyStrip_context s
  have hb1 : containsSub beginMark (pyStrip s) = false := by
    by_contra hb2
    rw [Bool.not_eq_false] at hb2
    have h3 := containsSub_of_context x y hb2
    rw [hxy] at h3
    rw [h3] at hb
    exact Bool.true_eq_false.mp hb
  have he1 : containsSub endMark (pyStrip s) = false := by
    by_contra he2
    rw [Bool.not_eq_false] at he2
    have h3 := containsSub_of_context x y he2
    rw [hxy] at h3
    rw [h3] at he
    exact Bool.true_eq_false.mp he
  have he2 : containsSub endMark (beginLine ++ '\n' :: pyStrip s) = false := by
    by_contra h2
    rw [Bool.not_eq_false] at h2
    rcases containsSub_append_cons beginLine (pyStrip s)
        (by decide) h2 with h3 | h3
    · exact absurd h3 (by decide)
    · rw [h3] at he1
      exact Bool.true_eq_false.mp he1
  simp only [normalizeLines, hb1, Bool.false_eq_true, if_false, he2]
  have hassoc : (beginLine ++ '\n' :: pyStrip s) ++ '\n' :: endLine
      = beginLine ++ '\n' :: (pyStrip s ++ '\n' :: endLine) := by
    simp
  rw [hassoc, splitNL_append, splitNL_append,
      splitNL_no_nl (show '\n' ∉ beginLine by decide),
      splitNL_no_nl (show '\n' ∉ endLine by decide),
      List.flatMap_append, List.flatMap_append]
  have hbf : formatLine (pyStrip beginLine) = [beginLine] := by decide
  have hef : formatLine (pyStrip endLine) = [endLine] := by decide
  simp [hbf, hef]

theorem sysRun_out_sublist (orc : α → Nat → Bool) (evs : List (Ev α))
    (s : SysState α) :
    ((sysRun orc s evs).persisted ++ (sysRun orc s evs).h.queue).Sublist
      ((s.persisted ++ s.h.queue) ++ enqOf evs) := by
  induction evs generalizing s with
  | nil => simp [sysRun, enqOf]
  | cons e evs ih =>
    rw [sysRun_cons]
    refine (ih (sysStep orc s e)).trans ?_
    cases e with
    | enq m =>
      simp only [sysStep, handle_message, enqOf]
      cases hql : qfull s.h with
      | false =>
        simp only [hql, Bool.not_false, if_true]
        have heq : (s.persisted ++ (s.h.queue ++ [m])) ++ enqOf evs
            = (s.persisted ++ s.h.queue) ++ (m :: enqOf evs) := by
          simp
        rw [heq]
      | true =>
        simp only [hql, Bool.not_true, Bool.false_eq_true, if_false]
        exact (List.sublist_cons_self m (enqOf evs)).append_left _
    | tick =>
      simp only [enqOf]
      cases hq : s.h.queue with
      | nil => simp [sysStep, hq]
      | cons m rest =>
        simp only [sysStep, hq]
        split
        · have heq : (s.persisted ++ [m]) ++ rest
              = s.persisted ++ (m :: rest) := by simp
          simp only [heq]
          exact List.Sublist.refl _
        · exact ((List.sublist_cons_self m rest).append_left
            s.persisted).append_right _

theorem sysRun_processed_eq (orc : α → Nat → Bool) (evs : List (Ev α))
    (s : SysState α) (h : s.h.processed = s.persisted.length) :
    (sysRun orc s evs).h.processed = (sysRun orc s evs).persisted.length := by
  induction evs generalizing s with
  | nil => exact h
  | cons e evs ih =>
    rw [sysRun_cons]
    apply ih
    cases e with
    | enq m =>
      simp only [sysStep, handle_message]
      split <;> exact h
    | tick =>
      cases hq : s.h.queue with
      | nil => simpa [sysStep, hq] using h
      | cons m rest =>
        simp only [sysStep, hq]
        split <;> simp [h]

theorem drainList_all_ok (orc : α → Nat → Bool) (q : List α)
    (h : ∀ m ∈ q, orc m 0 = true) :
    drainList orc q = (q, 0, q.length) := by
  induction q with
  | nil => simp [drainList]
  | cons m rest ih =>
    have hm : store_message (orc m) = ⟨1, true, false, 0⟩ := by
      rw [store_message_cases]
      simp [h m (by simp)]
    rw [drainList, hm, ih (fun x hx => h x (by simp [hx]))]
    simp [Nat.add_comm]

/-! ## Claim theorems -/

/-- C6: when the session is disconnected, `publish` makes exactly one
reconnect attempt; if it fails, `publish` returns failure without any
transport publish call.  When connected initially or after the single
successful reconnect, exactly one transport publish call is made and
the result is success iff the acknowledgment code is 0; a non-zero code
yields failure with no retry (at most one transport publish call on
every path). -/
theorem c6_publish_reconnect (c r : Bool) (code : Nat)
    (po : Except Nat Nat) :
    publish false false po = ⟨false, 0, 1⟩
    ∧ publish false true (.ok code) = ⟨code == 0, 1, 1⟩
    ∧ publish true r (.ok code) = ⟨code == 0, 1, 0⟩
    ∧ ((code == 0) = true ↔ code = 0)
    ∧ (publish c r po).publishCalls ≤ 1
    ∧ (publish c r po).reconnectCalls = (if c then 0 else 1) := by
  refine ⟨?_, ?_, ?_, ?_, ?_, ?_⟩
  · cases po <;> simp [publish]
  · simp [publish]
  · simp [publish]
  · simp
  · cases c <;> cases r <;> cases po <;> simp [publish]
  · cases c <;> cases r <;> cases po <;> simp [publish]

/-- C7: `subscribe` issues exactly one transport subscribe call; it adds
the topic filter to the subscribed-topics set iff the acknowledgment
code is 0 (set semantics: adding an already-present filter leaves the
set unchanged and duplicate-freeness is preserved); on a non-zero code
it returns failure and the set is unchanged. -/
theorem c7_subscribe_set (topics : List String) (t : String)
    (code e : Nat) :
    (code = 0 →
       subscribe topics t (.ok code) = ⟨true, setAdd topics t, 1⟩
       ∧ (∀ x, x ∈ setAdd topics t ↔ x ∈ topics ∨ x = t)
       ∧ (t ∈ topics → setAdd topics t = topics)
       ∧ (topics.Nodup → (setAdd topics t).Nodup))
    ∧ (code ≠ 0 → subscribe topics t (.ok code) = ⟨false, topics, 1⟩)
    ∧ subscribe topics t (.error e) = ⟨false, topics, 1⟩
    ∧ (subscribe topics t (.ok code)).subscribeCalls = 1 := by
  refine ⟨?_, ?_, ?_, ?_⟩
  · intro h
    subst h
    exact ⟨by simp [subscribe], fun x => setAdd_mem topics t x,
           fun ht => setAdd_of_mem ht, fun hn => setAdd_nodup hn⟩
  · intro h
    simp [subscribe, h]
  · simp [subscribe]
  · simp [subscribe]
    split <;> simp

/-- Witness for C7 at concrete inputs. -/
theorem c7_subscribe_set_witness :
    subscribe ["a"] "b" (.ok 0) = ⟨true, ["a", "b"], 1⟩
    ∧ subscribe ["a"] "b" (.ok 2) = ⟨false, ["a"], 1⟩ :=
  ⟨((c7_subscribe_set ["a"] "b" 0 9).1 rfl).1,
   (c7_subscribe_set ["a"] "b" 2 9).2.1 (by decide)⟩

/-- C4: over any number of disconnect/reconnect cycles (each cycle is
`on_disconnect` with an arbitrary reason code followed by `on_connect`
with reason code 0), the subscribed-topics set is unchanged in size and
membership: `on_disconnect` never clears it, `on_connect` never
modifies it, and each reconnect re-issues exactly one transport
subscribe call per filter (given the set's duplicate-freeness, which
the Python `set` guarantees). -/
theorem c4_resubscription_idempotent (st : ConnState) (drcs : List Nat)
    (rc : Nat) :
    (run_cycles st drcs).1.subscribed_topics = st.subscribed_topics
    ∧ (run_cycles st drcs).2.length = drcs.length
    ∧ (∀ calls ∈ (run_cycles st drcs).2, calls = st.subscribed_topics)
    ∧ (on_disconnect st rc).subscribed_topics = st.subscribed_topics
    ∧ (on_connect st rc).1.subscribed_topics = st.subscribed_topics
    ∧ (st.subscribed_topics.Nodup →
        ∀ t ∈ st.subscribed_topics, ∀ calls ∈ (run_cycles st drcs).2,
          calls.count t = 1) := by
  obtain ⟨h1, h2⟩ := run_cycles_spec st drcs
  refine ⟨h1, by simp [h2], ?_, by simp [on_disconnect], ?_, ?_⟩
  · intro calls hc
    rw [h2] at hc
    obtain ⟨_, _, rfl⟩ := List.mem_map.mp hc
    rfl
  · unfold on_connect
    split <;> rfl
  · intro hn t ht calls hc
    rw [h2] at hc
    obtain ⟨_, _, rfl⟩ := List.mem_map.mp hc
    exact List.count_eq_one_of_mem hn ht

/-- C1: over every interleaving of network-callback (`enq`) and worker
(`tick`) events starting from a fresh handler of capacity `C > 0`, the
queue length never exceeds `C`; a `handle_message` call on a full queue
increments `dropped_count` by exactly one and leaves the queue contents
(and every other field) unchanged, and a call on a non-full queue
appends the record; the function is total (models `put_nowait`:
the caller is never blocked). -/
theorem c1_queue_bounded {α : Type} (C : Nat) (hC : 0 < C)
    (orc : α → Nat → Bool) (evs : List (Ev α)) (h : Handler α) (m : α) :
    (sysRun orc (sysInit α C) evs).h.queue.length ≤ C
    ∧ (0 < h.maxsize → h.maxsize ≤ h.queue.length →
        handle_message h m = { h with dropped := h.dropped + 1 })
    ∧ (qfull h = false →
        handle_message h m = { h with queue := h.queue ++ [m] }) := by
  refine ⟨?_, ?_, ?_⟩
  · exact (sysRun_invariant orc evs (sysInit α C) hC
      (by simp [sysInit])).2
  · intro h1 h2
    have hf : qfull h = true := by simp [qfull, h1, h2]
    simp [handle_message, hf]
  · intro hq
    simp [handle_message, hq]

/-- Witness for C1: capacity 2, three enqueues; a full handler drops. -/
theorem c1_queue_bounded_witness :
    (sysRun (fun _ _ => true) (sysInit Nat 2)
        [.enq 1, .enq 2, .enq 3]).h.queue.length ≤ 2
    ∧ handle_message (⟨[5, 6], 2, 0, 0⟩ : Handler Nat) 7
        = ⟨[5, 6], 2, 0, 1⟩ := by
  obtain ⟨a, b, _⟩ := c1_queue_bounded 2 (by decide) (fun _ _ => true)
    [.enq 1, .enq 2, .enq 3] (⟨[5, 6], 2, 0, 0⟩ : Handler Nat) 7
  exact ⟨a, b (by decide) (by decide)⟩

/-- C2: `_store_message` calls the store at most 3 times, stops at the
first success (first success on 0-based attempt `i` means exactly
`i + 1` calls); if all 3 attempts fail, the outcome is 3 calls, one
error-log event, and failure re-raised; the worker's `tick` on such a
record discards it (queue moves past it, it is never re-attempted),
records exactly one loop-level failure event and leaves
`processed_count` unchanged; the worker loop then continues with the
remaining events rather than terminating. -/
theorem c2_store_retry {α : Type} (oracle : Nat → Bool)
    (orc : α → Nat → Bool) (s : SysState α) (m : α) (rest : List α)
    (evs : List (Ev α)) :
    (store_message oracle).calls ≤ 3
    ∧ (∀ i, i < 3 → oracle i = true → (∀ j, j < i → oracle j = false) →
        (store_message oracle).calls = i + 1
        ∧ (store_message oracle).ok = true)
    ∧ ((∀ j, j < 3 → oracle j = false) →
        store_message oracle = ⟨3, false, true, 2⟩)
    ∧ (s.h.queue = m :: rest → (∀ j, j < 3 → orc m j = false) →
        (sysStep orc s .tick).h.queue = rest
        ∧ (sysStep orc s .tick).errors = s.errors + 1
        ∧ (sysStep orc s .tick).insertCalls = s.insertCalls + 3
        ∧ (sysStep orc s .tick).h.processed = s.h.processed)
    ∧ sysRun orc s (.tick :: evs) = sysRun orc (sysStep orc s .tick) evs := by
  refine ⟨store_message_calls_le oracle, ?_,
    fun hf => store_message_all_fail hf, ?_, rfl⟩
  · intro i hi h1 h2
    rw [store_message_cases]
    interval_cases i
    · simp [h1]
    · simp [h2 0 (by omega), h1]
    · simp [h2 0 (by omega), h2 1 (by omega), h1]
  · intro hq hf
    rw [sysStep_tick_fail hq hf]
    exact ⟨rfl, rfl, rfl, rfl⟩

/-- Witness for C2: an always-failing store and a store succeeding on
the second attempt, plus one failing worker tick. -/
theorem c2_store_retry_witness :
    store_message (fun _ => false) = ⟨3, false, true, 2⟩
    ∧ (store_message (fun k => k == 1)).calls = 2
    ∧ (sysStep (fun _ _ => false)
        (⟨⟨[1, 2], 5, 0, 0⟩, [], 0, 0⟩ : SysState Nat) .tick).errors = 1 := by
  obtain ⟨_, _, h3, h4, _⟩ := c2_store_retry (fun _ => false)
    (fun _ _ => false) (⟨⟨[1, 2], 5, 0, 0⟩, [], 0, 0⟩ : SysState Nat)
    1 [2] ([] : List (Ev Nat))
  obtain ⟨_, h2', _⟩ := c2_store_retry (fun k => k == 1)
    (fun _ _ => false) (⟨⟨[1, 2], 5, 0, 0⟩, [], 0, 0⟩ : SysState Nat)
    1 [2] ([] : List (Ev Nat))
  refine ⟨h3 (fun j _ => rfl), ?_, (h4 rfl (fun j _ => rfl)).2.1⟩
  exact (h2' 1 (by omega) rfl (fun j hj => by interval_cases j <;> rfl)).1

/-- C10 (implicit): `processed_count` counts exactly the records whose
store insert eventually succeeded: along any run from a fresh handler
it equals the number of successfully persisted records; a worker tick
on a record whose insert succeeds increments it by one and appends the
record to the store; a tick on a record failing all three attempts
leaves `processed_count`, `dropped_count` and the persisted list
unchanged. -/
theorem c10_processed_only_success {α : Type} (orc : α → Nat → Bool)
    (C : Nat) (evs : List (Ev α)) (s : SysState α) (m : α)
    (rest : List α) :
    (sysRun orc (sysInit α C) evs).h.processed
      = (sysRun orc (sysInit α C) evs).persisted.length
    ∧ (s.h.queue = m :: rest → (store_message (orc m)).ok = true →
        (sysStep orc s .tick).h.processed = s.h.processed + 1
        ∧ (sysStep orc s .tick).persisted = s.persisted ++ [m])
    ∧ (s.h.queue = m :: rest → (∀ j, j < 3 → orc m j = false) →
        (sysStep orc s .tick).h.processed = s.h.processed
        ∧ (sysStep orc s .tick).h.dropped = s.h.dropped
        ∧ (sysStep orc s .tick).persisted = s.persisted) := by
  refine ⟨sysRun_processed_eq orc evs _ (by simp [sysInit]), ?_, ?_⟩
  · intro hq hok
    rw [sysStep_tick_ok hq hok]
    exact ⟨rfl, rfl⟩
  · intro hq hf
    rw [sysStep_tick_fail hq hf]
    exact ⟨rfl, rfl, rfl⟩

/-- Witness for C10: one successful tick and one all-failing tick. -/
theorem c10_processed_only_success_witness :
    (sysStep (fun _ _ => true)
        (⟨⟨[4], 5, 0, 0⟩, [], 0, 0⟩ : SysState Nat) .tick).h.processed = 1
    ∧ (sysStep (fun _ _ => false)
        (⟨⟨[4], 5, 0, 0⟩, [], 0, 0⟩ : SysState Nat) .tick).h.processed = 0 := by
  obtain ⟨_, hok, _⟩ := c10_processed_only_success (fun _ _ => true) 5
    ([] : List (Ev Nat)) (⟨⟨[4], 5, 0, 0⟩, [], 0, 0⟩ : SysState Nat) 4 []
  obtain ⟨_, _, hfail⟩ := c10_processed_only_success (fun _ _ => false) 5
    ([] : List (Ev Nat)) (⟨⟨[4], 5, 0, 0⟩, [], 0, 0⟩ : SysState Nat) 4 []
  exact ⟨(hok rfl rfl).1, (hfail rfl (fun j _ => rfl)).1⟩

/-- C5: records are persisted in the same relative order in which they
were enqueued: along any interleaving from a fresh handler, the
persisted list followed by the still-queued records is a subsequence
of the enqueued records (overflow-dropped records are skipped, nothing
is reordered); in particular the persisted list itself is such a
subsequence. -/
theorem c5_fifo_order {α : Type} (orc : α → Nat → Bool) (C : Nat)
    (evs : List (Ev α)) :
    ((sysRun orc (sysInit α C) evs).persisted
      ++ (sysRun orc (sysInit α C) evs).h.queue).Sublist (enqOf evs)
    ∧ (sysRun orc (sysInit α C) evs).persisted.Sublist (enqOf evs) := by
  have h := sysRun_out_sublist orc evs (sysInit α C)
  simp only [sysInit, List.append_nil, List.nil_append] at h
  exact ⟨h, (List.sublist_append_left _ _).trans h⟩

/-- C3: if the queue holds `K ≤ C` records at shutdown and every store
insert succeeds, the drain persists exactly those `K` records in order
(`K` additional inserts), the queue ends empty, and — given that every
previously processed record corresponds to one successful insert — the
store total equals the pre-shutdown processed count plus `K`. -/
theorem c3_shutdown_drains {α : Type} (orc : α → Nat → Bool)
    (s : SysState α) (hK : s.h.queue.length ≤ s.h.maxsize)
    (hsucc : ∀ m ∈ s.h.queue, orc m 0 = true) :
    (shutdown_run orc s).persisted = s.persisted ++ s.h.queue
    ∧ (shutdown_run orc s).persisted.length
        = s.persisted.length + s.h.queue.length
    ∧ (shutdown_run orc s).h.queue = []
    ∧ (shutdown_run orc s).insertCalls
        = s.insertCalls + s.h.queue.length
    ∧ (s.h.processed = s.persisted.length →
        (shutdown_run orc s).persisted.length
          = s.h.processed + s.h.queue.length) := by
  have hd := drainList_all_ok orc s.h.queue hsucc
  unfold shutdown_run
  rw [hd]
  exact ⟨rfl, by simp, rfl, rfl, fun hp => by simp [hp]⟩

/-- Witness for C3: two resident records, always-succeeding store. -/
theorem c3_shutdown_drains_witness :
    (shutdown_run (fun _ _ => true)
        (⟨⟨[8, 9], 4, 1, 0⟩, [7], 0, 1⟩ : SysState Nat)).persisted
      = [7, 8, 9]
    ∧ (shutdown_run (fun _ _ => true)
        (⟨⟨[8, 9], 4, 1, 0⟩, [7], 0, 1⟩ : SysState Nat)).h.queue = [] := by
  obtain ⟨h1, _, h3, _⟩ := c3_shutdown_drains (fun _ _ => true)
    (⟨⟨[8, 9], 4, 1, 0⟩, [7], 0, 1⟩ : SysState Nat)
    (by decide) (fun m _ => rfl)
  exact ⟨h1, h3⟩

/-- C8: transport- and store-level exceptions never propagate out of
the network callback, the worker loop, or the facade calls: a raising
payload decode leaves the handler untouched and `_on_message` returns
normally; a raising transport publish/subscribe/connect yields the
failure return value with state unchanged; a store failure on a worker
tick is absorbed into an error count and the run continues with the
remaining events. -/
theorem c8_failures_contained {α : Type} (e : Nat) (h : Handler α)
    (c r w : Bool) (topics : List String) (t : String)
    (orc : α → Nat → Bool) (s : SysState α) (m : α) (rest : List α)
    (evs1 evs2 : List (Ev α)) :
    on_message_run (.error e) h = (h, false)
    ∧ (publish c r (.error e)).success = false
    ∧ subscribe topics t (.error e) = ⟨false, topics, 1⟩
    ∧ connect_run (.error e) w = false
    ∧ (s.h.queue = m :: rest → (∀ j, j < 3 → orc m j = false) →
        sysStep orc s .tick =
          { s with h := { s.h with queue := rest },
                   errors := s.errors + 1,
                   insertCalls := s.insertCalls + 3 })
    ∧ sysRun orc s (evs1 ++ evs2) = sysRun orc (sysRun orc s evs1) evs2 := by
  refine ⟨rfl, ?_, rfl, rfl, fun hq hf => sysStep_tick_fail hq hf, ?_⟩
  · cases c <;> cases r <;> simp [publish]
  · simp [sysRun, List.foldl_append]

/-- Witness for C8: a failing store tick followed by further events. -/
theorem c8_failures_contained_witness :
    (publish true true (.error 5)).success = false
    ∧ sysStep (fun _ _ => false)
        (⟨⟨[1], 3, 0, 0⟩, [], 0, 0⟩ : SysState Nat) .tick
      = (⟨⟨[], 3, 0, 0⟩, [], 1, 3⟩ : SysState Nat) := by
  obtain ⟨_, h2, _, _, h5, _⟩ := c8_failures_contained 5
    (⟨[], 3, 0, 0⟩ : Handler Nat) true true true ["a"] "b"
    (fun _ _ => false) (⟨⟨[1], 3, 0, 0⟩, [], 0, 0⟩ : SysState Nat)
    1 [] [] []
  exact ⟨h2, h5 rfl (fun j _ => rfl)⟩

/-- Witness for C4 at concrete inputs. -/
theorem c4_resubscription_idempotent_witness :
    (run_cycles ⟨true, ["a", "b"]⟩ [7, 0]).1.subscribed_topics = ["a", "b"]
    ∧ (∀ calls ∈ (run_cycles ⟨true, ["a", "b"]⟩ [7, 0]).2,
        calls.count "a" = 1) := by
  obtain ⟨h1, _, _, _, _, h6⟩ :=
    c4_resubscription_idempotent ⟨true, ["a", "b"]⟩ [7, 0] 3
  exact ⟨h1, fun calls hc => h6 (by decide) "a" (by decide) calls hc⟩

/-- C9: for a non-empty certificate input lacking the
`BEGIN CERTIFICATE` / `END CERTIFICATE` marker text, the delimiters are
synthesized: the first line of the normalized certificate is
`-----BEGIN CERTIFICATE-----` and the last is
`-----END CERTIFICATE-----`.  Every non-delimiter line (no leading
`-----`) of the normalized certificate has length at most 64, and the
re-wrap is by consecutive 64-character chunks: the chunks of a line
concatenate back to the line, each is at most 64 characters and every
chunk but the last is exactly 64; a non-empty non-delimiter line is
formatted exactly by that chunking.  The stored `ca_cert` is the
newline-join of these lines. -/
theorem c9_cert_normalized (s : List Char) (hs : s ≠ []) :
    (containsSub beginMark s = false → containsSub endMark s = false →
       (normalizeLines s).head? = some beginLine
       ∧ (normalizeLines s).getLast? = some endLine)
    ∧ (∀ l ∈ normalizeLines s, hasPre dashes l = false → l.length ≤ 64)
    ∧ (∀ l : List Char, (chunk64 l).flatten = l)
    ∧ (∀ l c : List Char, c ∈ chunk64 l → c.length ≤ 64)
    ∧ (∀ (l : List Char) (i : Nat), i + 1 < (chunk64 l).length →
        ((chunk64 l).getD i []).length = 64)
    ∧ (∀ l : List Char, l.isEmpty = false → hasPre dashes l = false →
        formatLine l = chunk64 l)
    ∧ normalizeCert s = List.intercalate ['\n'] (normalizeLines s) := by
  refine ⟨?_, ?_, chunk64_flatten, fun l c => chunk64_mem_le l c,
    chunk64_getD, ?_, rfl⟩
  · intro hb he
    rw [normalizeLines_eq_of_absent s hb he]
    exact ⟨rfl, List.getLast?_concat _⟩
  · intro l hl hd
    simp only [normalizeLines, List.mem_flatMap] at hl
    obtain ⟨line, _, hli⟩ := hl
    unfold formatLine at hli
    split at hli
    · exact chunk64_mem_le _ l hli
    · rename_i hcond
      simp only [List.mem_singleton] at hli
      subst hli
      simp only [Bool.and_eq_true, Bool.not_eq_true'] at hcond
      cases hemp : (pyStrip line).isEmpty
      · exact absurd ⟨hemp, hd⟩ hcond
      · simp [List.isEmpty_iff.mp hemp]
  · intro l hemp hd
    unfold formatLine
    rw [if_pos]
    simp [hemp, hd]

/-- Witness for C9 on the input `"ab"`, which lacks both markers. -/
theorem c9_cert_normalized_witness :
    (normalizeLines "ab".toList).head? = some beginLine
    ∧ (normalizeLines "ab".toList).getLast? = some endLine := by
  obtain ⟨h1, _⟩ := c9_cert_normalized "ab".toList (by decide)
  exact h1 (by decide) (by decide)

end HiveMQ
